import Mathlib

/-!
Verification of the topology engine of `power_system_simulation`
(`graph_processor.py`): graph construction with validation, connectivity and
cycle checking, downstream-vertex computation under edge removal, and the
brute-force search for alternative edges.

The Python code stores the network in a `networkx.Graph` (a *simple*
undirected graph: one adjacency per unordered endpoint pair, edge attributes
overwritten on re-insertion).  We embed that graph as a list of nodes plus a
list of edge entries `((u, v), id)` in insertion order, with at most one
entry per unordered pair.  The networkx primitives used by the code
(`is_connected`, `find_cycle`, `connected_components`) are modelled by an
incremental component-merging fold over the edge list: starting from
singleton components, each edge either merges the two components of its
endpoints or, when both endpoints already share a component (including a
self-loop), witnesses a cycle.  The resulting component list is exactly the
partition of the vertices into connected components.
-/

namespace PSS

/-- `l.index(x)` of Python: index of the first occurrence. -/
def firstIdx : List Int → Int → Nat
  | [], _ => 0
  | y :: l, x => if y = x then 0 else firstIdx l x + 1

/-- Total list indexing with a default (the Python code only indexes in
bounds; the default is never reached under the validated preconditions). -/
def nthD : List α → Nat → α → α
  | [], _, d => d
  | a :: _, 0, _ => a
  | _ :: l, n + 1, d => nthD l n d

/-- Unordered endpoint-pair equality, as used by the networkx simple graph. -/
def samePair (p q : Int × Int) : Bool :=
  (p.1 == q.1 && p.2 == q.2) || (p.1 == q.2 && p.2 == q.1)

/-- Append a node if it is not present (networkx keeps insertion order and
ignores re-insertions). -/
def insertNode (l : List Int) (v : Int) : List Int :=
  if v ∈ l then l else l ++ [v]

/-- `add_nodes_from`. -/
def addNodes (l : List Int) (vs : List Int) : List Int :=
  vs.foldl insertNode l

/-- The networkx simple graph: node list plus one edge entry per unordered
endpoint pair, each entry carrying the `id` attribute last written to it. -/
structure Graph where
  nodes : List Int
  edges : List ((Int × Int) × Int)
deriving DecidableEq, Repr

def Graph.addNode (g : Graph) (v : Int) : Graph :=
  { g with nodes := insertNode g.nodes v }

def Graph.hasEdge (g : Graph) (u v : Int) : Bool :=
  g.edges.any fun e => samePair e.1 (u, v)

/-- `add_edge(u, v, id=i)`: endpoints are added as nodes; an existing entry
for the unordered pair only has its `id` attribute overwritten. -/
def Graph.addEdge (g : Graph) (u v : Int) (i : Int) : Graph :=
  if g.hasEdge u v then
    { nodes := insertNode (insertNode g.nodes u) v,
      edges := g.edges.map fun e => if samePair e.1 (u, v) then (e.1, i) else e }
  else
    { nodes := insertNode (insertNode g.nodes u) v,
      edges := g.edges ++ [((u, v), i)] }

/-- `remove_edge(u, v)`: drops the entry for the unordered pair; nodes are
kept. -/
def Graph.removeEdge (g : Graph) (u v : Int) : Graph :=
  { g with edges := g.edges.filter fun e => !samePair e.1 (u, v) }

/-- First component of the partition containing `u`. -/
def findC (P : List (List Int)) (u : Int) : Option (List Int) :=
  P.find? fun c => decide (u ∈ c)

/-- One step of incremental component computation: merge the two components
of the endpoints of an edge; a within-component edge (or self-loop) leaves
the partition unchanged. -/
def mergeStep (P : List (List Int)) (u v : Int) : List (List Int) :=
  match findC P u, findC P v with
  | some cu, some cv => if cu = cv then P else (cu ++ cv) :: ((P.erase cu).erase cv)
  | _, _ => P

/-- Whether an edge closes a cycle: both endpoints already share a
component (a self-loop always does). -/
def cycleStep (P : List (List Int)) (u v : Int) : Bool :=
  match findC P u, findC P v with
  | some cu, some cv => decide (cu = cv)
  | _, _ => false

def ufStep (acc : List (List Int) × Bool) (e : (Int × Int) × Int) :
    List (List Int) × Bool :=
  (mergeStep acc.1 e.1.1 e.1.2, acc.2 || cycleStep acc.1 e.1.1 e.1.2)

/-- Fold all edges over the partition, tracking whether any edge closed a
cycle. -/
def ufRun (P : List (List Int)) (es : List ((Int × Int) × Int)) :
    List (List Int) × Bool :=
  es.foldl ufStep (P, false)

/-- Initial partition: one singleton component per distinct node. -/
def initP (s : List Int) : List (List Int) :=
  (addNodes [] s).map fun v => [v]

/-- Model of `networkx.connected_components` (as a list of vertex lists). -/
def Graph.components (g : Graph) : List (List Int) :=
  (ufRun (initP g.nodes) g.edges).1

/-- Model of `networkx.find_cycle` succeeding (a cycle exists). -/
def Graph.hasCycleB (g : Graph) : Bool :=
  (ufRun (initP g.nodes) g.edges).2

/-- Model of `networkx.is_connected`. -/
def Graph.connectedB (g : Graph) : Bool :=
  g.components.length == 1

/-- The exception kinds raised by the Python module.  `nameError` models the
Python `NameError` reached in `find_downstream_vertices` when no component
contains the source vertex (unreachable under the class invariant). -/
inductive PyErr where
  | idNotFound
  | inputLengthDoesNotMatch
  | idNotUnique
  | graphNotFullyConnected
  | graphCycle
  | edgeAlreadyDisabled
  | nameError
deriving DecidableEq, Repr

/-- The state of a constructed `GraphProcessor`: the five stored input
fields plus the internal `_graph`. -/
structure GraphProcessor where
  vertex_ids : List Int
  edge_ids : List Int
  edge_vertex_id_pairs : List (Int × Int)
  edge_enabled : List Bool
  source_vertex_id : Int
  graph : Graph
deriving DecidableEq, Repr

/-- The graph-building loop of `__init__`: add all vertices, then for each
edge position in order, if enabled, `add_edge(*pair, id=edge_id)`. -/
def buildGraph (vertex_ids : List Int) (pairs : List (Int × Int))
    (flags : List Bool) (ids : List Int) : Graph :=
  (pairs.zip (flags.zip ids)).foldl
    (fun g pe => if pe.2.1 then g.addEdge pe.1.1 pe.1.2 pe.2.2 else g)
    { nodes := addNodes [] vertex_ids, edges := [] }

/-- `GraphProcessor.__init__`: the five input checks in program order, then
the connectivity and cycle checks on the enabled subgraph. -/
def construct (vertex_ids edge_ids : List Int) (pairs : List (Int × Int))
    (flags : List Bool) (src : Int) : Except PyErr GraphProcessor :=
  if ¬ (∀ v ∈ vertex_ids, v ∉ edge_ids) then .error .idNotUnique
  else if pairs.length ≠ edge_ids.length then .error .inputLengthDoesNotMatch
  else if ¬ (∀ p ∈ pairs, p.1 ∈ vertex_ids ∧ p.2 ∈ vertex_ids) then .error .idNotFound
  else if flags.length ≠ edge_ids.length then .error .inputLengthDoesNotMatch
  else if src ∉ vertex_ids then .error .idNotFound
  else if ¬ (buildGraph vertex_ids pairs flags edge_ids).connectedB then
    .error .graphNotFullyConnected
  else if (buildGraph vertex_ids pairs flags edge_ids).hasCycleB then
    .error .graphCycle
  else .ok ⟨vertex_ids, edge_ids, pairs, flags, src,
    buildGraph vertex_ids pairs flags edge_ids⟩

/-- Body of `find_downstream_vertices` after the two precondition checks:
remove the edge from a copy of the graph, list the components, pick the one
containing the source, return the first other one. -/
def downstreamCore (gp : GraphProcessor) (pr : Int × Int) :
    Except PyErr (List Int) :=
  let graphCopy := gp.graph
  let g2 := graphCopy.removeEdge pr.1 pr.2
  let connected := g2.components
  match connected.find? (fun c => decide (gp.source_vertex_id ∈ c)) with
  | some sourceComponent =>
      match connected.find? (fun c => decide (c ≠ sourceComponent)) with
      | some comp => .ok comp
      | none => .ok []
  | none => if connected.isEmpty then .ok [] else .error .nameError

/-- `find_downstream_vertices`, with the untouched object state returned
alongside the result (the method never assigns to `self`; the removal
happens on a copy). -/
def find_downstream_vertices (gp : GraphProcessor) (first_edge_id : Int) :
    Except PyErr (List Int) × GraphProcessor :=
  if first_edge_id ∉ gp.edge_ids then (.error .idNotFound, gp)
  else
    let index := firstIdx gp.edge_ids first_edge_id
    if nthD gp.edge_enabled index false = false then (.ok [], gp)
    else (downstreamCore gp (nthD gp.edge_vertex_id_pairs index (0, 0)), gp)

/-- `dict(zip(ks, vs))[k]`: the value of the last occurrence of `k`. -/
def lastAssoc (ks : List Int) (vs : List Bool) (k : Int) : Option Bool :=
  (ks.zip vs).foldl (fun acc p => if p.1 = k then some p.2 else acc) none

/-- The per-candidate trial graph of `find_alternative_edges`: all vertices,
then for each edge position in order, if its id maps to true in the status
dictionary, `add_edge(v1, v2, id=eid)`. -/
def trialGraph (vertex_ids edge_ids : List Int) (pairs : List (Int × Int))
    (status : Int → Bool) : Graph :=
  (edge_ids.zip pairs).foldl
    (fun g ep => if status ep.1 then g.addEdge ep.2.1 ep.2.2 ep.1 else g)
    { nodes := addNodes [] vertex_ids, edges := [] }

/-- Body of `find_alternative_edges` after the two precondition checks:
collect the disabled edge ids in order and keep those whose trial graph
(status dictionary: candidate true, target false, otherwise the
last-occurrence flag of the id) is connected and acyclic. -/
def alternativeCore (gp : GraphProcessor) (disabled_edge_id : Int) :
    List Int :=
  (((gp.edge_ids.zip gp.edge_enabled).filter fun p => !p.2).map (·.1)).filter
    fun testEdgeId =>
      (trialGraph gp.vertex_ids gp.edge_ids gp.edge_vertex_id_pairs
        (fun k => if k = testEdgeId then true
          else if k = disabled_edge_id then false
          else (lastAssoc gp.edge_ids gp.edge_enabled k).getD false)).connectedB &&
      !(trialGraph gp.vertex_ids gp.edge_ids gp.edge_vertex_id_pairs
        (fun k => if k = testEdgeId then true
          else if k = disabled_edge_id then false
          else (lastAssoc gp.edge_ids gp.edge_enabled k).getD false)).hasCycleB

/-- `find_alternative_edges`, with the untouched object state returned
alongside the result (every trial graph is a fresh disposable object). -/
def find_alternative_edges (gp : GraphProcessor) (disabled_edge_id : Int) :
    Except PyErr (List Int) × GraphProcessor :=
  if disabled_edge_id ∉ gp.edge_ids then (.error .idNotFound, gp)
  else
    let index := firstIdx gp.edge_ids disabled_edge_id
    if nthD gp.edge_enabled index false = false then (.error .edgeAlreadyDisabled, gp)
    else (.ok (alternativeCore gp disabled_edge_id), gp)

/-! ### Elementary list lemmas -/

theorem mem_insertNode {l : List Int} {w v : Int} :
    v ∈ insertNode l w ↔ v ∈ l ∨ v = w := by
  unfold insertNode
  split
  · constructor
    · exact Or.inl
    · rintro (h | rfl) <;> assumption
  · simp

theorem nodup_insertNode {l : List Int} {w : Int} (h : l.Nodup) :
    (insertNode l w).Nodup := by
  unfold insertNode
  split
  · exact h
  · simpa [List.nodup_append] using ⟨h, by assumption⟩

theorem mem_addNodes {vs : List Int} {l : List Int} {v : Int} :
    v ∈ addNodes l vs ↔ v ∈ l ∨ v ∈ vs := by
  induction vs generalizing l with
  | nil => simp [addNodes]
  | cons a vs ih =>
      show v ∈ addNodes (insertNode l a) vs ↔ _
      rw [ih, mem_insertNode]
      simp only [List.mem_cons]
      tauto

theorem nodup_addNodes {vs : List Int} {l : List Int} (h : l.Nodup) :
    (addNodes l vs).Nodup := by
  induction vs generalizing l with
  | nil => exact h
  | cons a vs ih => exact ih (nodup_insertNode h)

theorem firstIdx_lt_length {l : List Int} {x : Int} (h : x ∈ l) :
    firstIdx l x < l.length := by
  induction l with
  | nil => simp at h
  | cons a l ih =>
      unfold firstIdx
      split
      · simp
      · have hx : x ∈ l := by
          rcases List.mem_cons.mp h with h1 | h1
          · exact absurd h1.symm (by assumption)
          · exact h1
        simpa using ih hx

theorem nthD_firstIdx {l : List Int} {x : Int} (d : Int) (h : x ∈ l) :
    nthD l (firstIdx l x) d = x := by
  induction l with
  | nil => simp at h
  | cons a l ih =>
      rcases Decidable.em (a = x) with he | he
      · simp [firstIdx, he, nthD]
      · have hx : x ∈ l := by
          rcases List.mem_cons.mp h with h1 | h1
          · exact absurd h1.symm he
          · exact h1
        simpa [firstIdx, he, nthD] using ih hx

theorem mem_zip_nthD {a : List α} {b : List β} {i : Nat} (da : α) (db : β)
    (h1 : i < a.length) (h2 : i < b.length) :
    (nthD a i da, nthD b i db) ∈ a.zip b := by
  induction a generalizing b i with
  | nil => simp at h1
  | cons x a ih =>
      cases b with
      | nil => simp at h2
      | cons y b =>
          cases i with
          | zero => simp [List.zip_cons_cons, nthD]
          | succ i =>
              have := ih (by simpa using h1) (by simpa using h2)
              simp only [List.zip_cons_cons, nthD]
              exact List.mem_cons_of_mem _ this

/-! ### Unordered-pair equality -/

theorem samePair_iff {p q : Int × Int} :
    samePair p q = true ↔ (p.1 = q.1 ∧ p.2 = q.2) ∨ (p.1 = q.2 ∧ p.2 = q.1) := by
  simp [samePair]

theorem samePair_refl (p : Int × Int) : samePair p p = true := by
  simp [samePair]

theorem samePair_symm {p q : Int × Int} (h : samePair p q = true) :
    samePair q p = true := by
  rw [samePair_iff] at h ⊢
  tauto

theorem samePair_trans {p q r : Int × Int} (h1 : samePair p q = true)
    (h2 : samePair q r = true) : samePair p r = true := by
  rw [samePair_iff] at h1 h2 ⊢
  rcases h1 with ⟨a, b⟩ | ⟨a, b⟩ <;> rcases h2 with ⟨c, d⟩ | ⟨c, d⟩ <;>
    simp_all

/-! ### Partition machinery: the component structure built by the
incremental merge models the connected components of the graph. -/

/-- Pairwise disjointness of the component lists. -/
def PDisj (P : List (List Int)) : Prop :=
  P.Pairwise fun a b => ∀ x, x ∈ a → x ∉ b

/-- `P` is a partition of (the members of) `s` into nonempty components. -/
structure PartOf (P : List (List Int)) (s : List Int) : Prop where
  nonempty : ∀ c ∈ P, c ≠ []
  disj : PDisj P
  cover : ∀ v, (∃ c ∈ P, v ∈ c) ↔ v ∈ s

theorem pdisj_symmRel : Symmetric (fun (a b : List Int) => ∀ x, x ∈ a → x ∉ b) := by
  intro a b h x hxb hxa
  exact h x hxa hxb

theorem pdisj_of_ne {P : List (List Int)} (hd : PDisj P) {a b : List Int}
    (ha : a ∈ P) (hb : b ∈ P) (hne : a ≠ b) : ∀ x, x ∈ a → x ∉ b :=
  List.Pairwise.forall pdisj_symmRel hd ha hb hne

theorem partOf_nodup {P : List (List Int)} {s : List Int} (h : PartOf P s) :
    P.Nodup := by
  rw [List.nodup_iff_sublist]
  rintro c hsub
  have hmem : c ∈ P := hsub.subset (by simp)
  have hne : c ≠ [] := h.nonempty c hmem
  obtain ⟨x, hx⟩ := List.exists_mem_of_ne_nil c hne
  have := (List.pairwise_iff_forall_sublist.mp h.disj) hsub
  exact this x hx hx

theorem partOf_init (s : List Int) : PartOf (initP s) s := by
  constructor
  · intro c hc
    simp only [initP, List.mem_map] at hc
    obtain ⟨v, _, rfl⟩ := hc
    simp
  · have hnd : (addNodes [] s).Nodup := nodup_addNodes List.nodup_nil
    unfold PDisj initP
    rw [List.pairwise_map]
    have hpw : (addNodes [] s).Pairwise (· ≠ ·) := hnd
    refine hpw.imp ?_
    intro a b hab x hxa hxb
    simp only [List.mem_singleton] at hxa hxb
    exact hab (hxa ▸ hxb ▸ rfl)
  · intro v
    simp only [initP, List.mem_map]
    constructor
    · rintro ⟨c, ⟨w, hw, rfl⟩, hv⟩
      simp only [List.mem_singleton] at hv
      subst hv
      exact (mem_addNodes.mp hw).resolve_left (by simp)
    · intro hv
      exact ⟨[v], ⟨v, mem_addNodes.mpr (Or.inr hv), rfl⟩, by simp⟩

theorem findC_some {P : List (List Int)} {u : Int} {c : List Int}
    (h : findC P u = some c) : c ∈ P ∧ u ∈ c := by
  refine ⟨List.mem_of_find?_eq_some h, ?_⟩
  have := List.find?_some h
  simpa using this

theorem findC_of_mem {P : List (List Int)} (hd : PDisj P) {c : List Int}
    {u : Int} (hc : c ∈ P) (hu : u ∈ c) : findC P u = some c := by
  induction P with
  | nil => simp at hc
  | cons a P ih =>
      rcases List.mem_cons.mp hc with rfl | hc2
      · simp only [findC]
        rw [List.find?_cons_of_pos _ (by simpa using hu)]
      · have hd2 := List.pairwise_cons.mp hd
        have hua : u ∉ a := fun hua => hd2.1 c hc2 u hua hu
        have hrec := ih hd2.2 hc2
        simp only [findC] at hrec ⊢
        rw [List.find?_cons_of_neg _ (by simpa using hua)]
        exact hrec

theorem findC_isSome_of_mem {P : List (List Int)} {s : List Int}
    (hp : PartOf P s) {u : Int} (hu : u ∈ s) : ∃ c, findC P u = some c := by
  obtain ⟨c, hc, huc⟩ := (hp.cover u).mpr hu
  exact ⟨c, findC_of_mem hp.disj hc huc⟩

theorem findC_none_of_not_mem {P : List (List Int)} {s : List Int}
    (hp : PartOf P s) {u : Int} (hu : u ∉ s) : findC P u = none := by
  simp only [findC]
  rw [List.find?_eq_none]
  intro c hc
  simp only [decide_eq_true_eq]
  intro huc
  exact hu ((hp.cover u).mp ⟨c, hc, huc⟩)

theorem mem_erase_erase {P : List (List Int)} (hnd : P.Nodup) {cu cv c : List Int} :
    c ∈ (P.erase cu).erase cv ↔ c ≠ cv ∧ c ≠ cu ∧ c ∈ P := by
  rw [List.Nodup.mem_erase_iff (hnd.erase cu), List.Nodup.mem_erase_iff hnd]

theorem mergeStep_partOf {P : List (List Int)} {s : List Int} (hp : PartOf P s)
    (u v : Int) : PartOf (mergeStep P u v) s := by
  unfold mergeStep
  cases hu : findC P u with
  | none => exact hp
  | some cu =>
      cases hv : findC P v with
      | none => exact hp
      | some cv =>
          by_cases hcc : cu = cv
          · simpa [hcc] using hp
          · simp only [if_neg hcc]
            obtain ⟨hcuP, hucu⟩ := findC_some hu
            obtain ⟨hcvP, hvcv⟩ := findC_some hv
            have hnd := partOf_nodup hp
            constructor
            · intro c hc
              rcases List.mem_cons.mp hc with rfl | hc2
              · intro hnil
                exact hp.nonempty cu hcuP (List.append_eq_nil.mp hnil).1
              · exact hp.nonempty c ((mem_erase_erase hnd).mp hc2).2.2
            · refine List.pairwise_cons.mpr ⟨?_, ?_⟩
              · intro c hc x hx
                obtain ⟨hcv2, hcu2, hcP⟩ := (mem_erase_erase hnd).mp hc
                rcases List.mem_append.mp hx with hxc | hxc
                · exact pdisj_of_ne hp.disj hcuP hcP (fun h => hcu2 h.symm) x hxc
                · exact pdisj_of_ne hp.disj hcvP hcP (fun h => hcv2 h.symm) x hxc
              · exact List.Pairwise.sublist
                  (((P.erase cu).erase_sublist cv).trans (P.erase_sublist cu)) hp.disj
            · intro w
              constructor
              · rintro ⟨c, hc, hwc⟩
                rcases List.mem_cons.mp hc with rfl | hc2
                · rcases List.mem_append.mp hwc with hxc | hxc
                  · exact (hp.cover w).mp ⟨cu, hcuP, hxc⟩
                  · exact (hp.cover w).mp ⟨cv, hcvP, hxc⟩
                · exact (hp.cover w).mp ⟨c, ((mem_erase_erase hnd).mp hc2).2.2, hwc⟩
              · intro hws
                obtain ⟨c, hcP, hwc⟩ := (hp.cover w).mpr hws
                by_cases h1 : c = cu
                · exact ⟨cu ++ cv, by simp, List.mem_append.mpr (Or.inl (h1 ▸ hwc))⟩
                · by_cases h2 : c = cv
                  · exact ⟨cu ++ cv, by simp, List.mem_append.mpr (Or.inr (h2 ▸ hwc))⟩
                  · exact ⟨c, List.mem_cons_of_mem _
                      ((mem_erase_erase hnd).mpr ⟨h2, h1, hcP⟩), hwc⟩

theorem mergeStep_length {P : List (List Int)} {s : List Int} (hp : PartOf P s)
    {u v : Int} (hu : u ∈ s) (hv : v ∈ s) (hc : cycleStep P u v = false) :
    (mergeStep P u v).length + 1 = P.length := by
  obtain ⟨cu, hcu⟩ := findC_isSome_of_mem hp hu
  obtain ⟨cv, hcv⟩ := findC_isSome_of_mem hp hv
  have hne : cu ≠ cv := by
    intro h
    rw [cycleStep, hcu, hcv] at hc
    simp [h] at hc
  simp only [mergeStep, hcu, hcv, if_neg hne]
  obtain ⟨hcuP, _⟩ := findC_some hcu
  obtain ⟨hcvP, _⟩ := findC_some hcv
  have hnd := partOf_nodup hp
  have hcv2 : cv ∈ P.erase cu := (hnd.mem_erase_iff).mpr ⟨fun h => hne h.symm, hcvP⟩
  have l1 : (P.erase cu).length = P.length - 1 := List.length_erase_of_mem hcuP
  have l2 : ((P.erase cu).erase cv).length = (P.erase cu).length - 1 :=
    List.length_erase_of_mem hcv2
  have hpos : 0 < (P.erase cu).length :=
    List.length_pos.mpr (fun h => by rw [h] at hcv2; simp at hcv2)
  have hpos2 : 0 < P.length :=
    List.length_pos.mpr (fun h => by rw [h] at hcuP; simp at hcuP)
  simp only [List.length_cons]
  omega

/-- `Q` refines `P`: every component of `Q` is contained in one of `P`. -/
def Refines (Q P : List (List Int)) : Prop :=
  ∀ c ∈ Q, ∃ d ∈ P, ∀ x, x ∈ c → x ∈ d

theorem refines_refl (P : List (List Int)) : Refines P P :=
  fun c hc => ⟨c, hc, fun _ h => h⟩

theorem refines_trans {Q P R : List (List Int)} (h1 : Refines Q P)
    (h2 : Refines P R) : Refines Q R := by
  intro c hc
  obtain ⟨d, hd, hcd⟩ := h1 c hc
  obtain ⟨e, he, hde⟩ := h2 d hd
  exact ⟨e, he, fun x hx => hde x (hcd x hx)⟩

theorem refines_mergeStep_self {P : List (List Int)} {s : List Int}
    (hp : PartOf P s) (u v : Int) : Refines P (mergeStep P u v) := by
  unfold mergeStep
  cases hu : findC P u with
  | none => exact refines_refl P
  | some cu =>
      cases hv : findC P v with
      | none => exact refines_refl P
      | some cv =>
          by_cases hcc : cu = cv
          · simp only [if_pos hcc]
            exact refines_refl P
          · simp only [if_neg hcc]
            intro c hc
            by_cases h1 : c = cu
            · exact ⟨cu ++ cv, by simp, fun x hx => List.mem_append.mpr (Or.inl (h1 ▸ hx))⟩
            · by_cases h2 : c = cv
              · exact ⟨cu ++ cv, by simp, fun x hx => List.mem_append.mpr (Or.inr (h2 ▸ hx))⟩
              · exact ⟨c, List.mem_cons_of_mem _
                  ((mem_erase_erase (partOf_nodup hp)).mpr ⟨h2, h1, hc⟩), fun _ h => h⟩

theorem cycleStep_eq_true_of {P : List (List Int)} (hd : PDisj P)
    {u v : Int} {c : List Int} (hc : c ∈ P) (hu : u ∈ c) (hv : v ∈ c) :
    cycleStep P u v = true := by
  rw [cycleStep, findC_of_mem hd hc hu, findC_of_mem hd hc hv]
  simp

theorem cycleStep_sameC {P : List (List Int)} {u v : Int}
    (h : cycleStep P u v = true) : ∃ c ∈ P, u ∈ c ∧ v ∈ c := by
  cases hu : findC P u with
  | none => simp [cycleStep, hu] at h
  | some cu =>
      cases hv : findC P v with
      | none => simp [cycleStep, hu, hv] at h
      | some cv =>
          simp only [cycleStep, hu, hv, decide_eq_true_eq] at h
          obtain ⟨h1, h2⟩ := findC_some hu
          obtain ⟨_, h4⟩ := findC_some hv
          exact ⟨cu, h1, h2, h ▸ h4⟩

theorem cycleStep_mono {P Q : List (List Int)} {s : List Int} (hp : PartOf P s)
    (hr : Refines Q P) {u v : Int} (h : cycleStep Q u v = true) :
    cycleStep P u v = true := by
  obtain ⟨c, hcQ, hu, hv⟩ := cycleStep_sameC h
  obtain ⟨d, hdP, hsub⟩ := hr c hcQ
  exact cycleStep_eq_true_of hp.disj hdP (hsub u hu) (hsub v hv)

theorem refines_mergeStep {P Q : List (List Int)} {s : List Int}
    (hp : PartOf P s) (hq : PartOf Q s) (hr : Refines Q P) (u v : Int) :
    Refines (mergeStep Q u v) (mergeStep P u v) := by
  cases hqu : findC Q u with
  | none =>
      rw [show mergeStep Q u v = Q from by simp [mergeStep, hqu]]
      exact refines_trans hr (refines_mergeStep_self hp u v)
  | some cu =>
      cases hqv : findC Q v with
      | none =>
          rw [show mergeStep Q u v = Q from by simp [mergeStep, hqu, hqv]]
          exact refines_trans hr (refines_mergeStep_self hp u v)
      | some cv =>
          by_cases hcc : cu = cv
          · rw [show mergeStep Q u v = Q from by simp [mergeStep, hqu, hqv, hcc]]
            exact refines_trans hr (refines_mergeStep_self hp u v)
          · obtain ⟨hcuQ, hucu⟩ := findC_some hqu
            obtain ⟨hcvQ, hvcv⟩ := findC_some hqv
            have hus : u ∈ s := (hq.cover u).mp ⟨cu, hcuQ, hucu⟩
            have hvs : v ∈ s := (hq.cover v).mp ⟨cv, hcvQ, hvcv⟩
            obtain ⟨du, hdu⟩ := findC_isSome_of_mem hp hus
            obtain ⟨dv, hdv⟩ := findC_isSome_of_mem hp hvs
            obtain ⟨hduP, hudu⟩ := findC_some hdu
            obtain ⟨hdvP, hvdv⟩ := findC_some hdv
            obtain ⟨d1, hd1P, hsub1⟩ := hr cu hcuQ
            obtain ⟨d2, hd2P, hsub2⟩ := hr cv hcvQ
            have hd1 : d1 = du := by
              by_contra hne
              exact pdisj_of_ne hp.disj hd1P hduP hne u (hsub1 u hucu) hudu
            have hd2 : d2 = dv := by
              by_contra hne
              exact pdisj_of_ne hp.disj hd2P hdvP hne v (hsub2 v hvcv) hvdv
            rw [hd1] at hsub1
            rw [hd2] at hsub2
            rw [show mergeStep Q u v = (cu ++ cv) :: ((Q.erase cu).erase cv) from by
              simp [mergeStep, hqu, hqv, hcc]]
            intro c hc
            rcases List.mem_cons.mp hc with rfl | hc2
            · by_cases hdd : du = dv
              · rw [show mergeStep P u v = P from by simp [mergeStep, hdu, hdv, hdd]]
                refine ⟨du, hduP, fun x hx => ?_⟩
                rcases List.mem_append.mp hx with hxc | hxc
                · exact hsub1 x hxc
                · exact hdd ▸ hsub2 x hxc
              · rw [show mergeStep P u v = (du ++ dv) :: ((P.erase du).erase dv) from by
                  simp [mergeStep, hdu, hdv, hdd]]
                refine ⟨du ++ dv, by simp, fun x hx => ?_⟩
                rcases List.mem_append.mp hx with hxc | hxc
                · exact List.mem_append.mpr (Or.inl (hsub1 x hxc))
                · exact List.mem_append.mpr (Or.inr (hsub2 x hxc))
            · have hcQ : c ∈ Q := ((mem_erase_erase (partOf_nodup hq)).mp hc2).2.2
              obtain ⟨d, hdP, hsub⟩ := hr c hcQ
              obtain ⟨d', hd'm, hdd'⟩ := refines_mergeStep_self hp u v d hdP
              exact ⟨d', hd'm, fun x hx => hdd' x (hsub x hx)⟩

/-! ### Fold-level lemmas for the component computation -/

theorem ufFold_fst_acc (es : List ((Int × Int) × Int)) :
    ∀ (P : List (List Int)) (b : Bool),
      (es.foldl ufStep (P, b)).1 = (es.foldl ufStep (P, false)).1 := by
  induction es with
  | nil => intro P b; rfl
  | cons e es ih =>
      intro P b
      simp only [List.foldl_cons, ufStep]
      rw [ih, ih _ (false || cycleStep P e.1.1 e.1.2)]

theorem ufFold_snd_acc (es : List ((Int × Int) × Int)) :
    ∀ (P : List (List Int)) (b : Bool),
      (es.foldl ufStep (P, b)).2 = (b || (es.foldl ufStep (P, false)).2) := by
  induction es with
  | nil => intro P b; simp
  | cons e es ih =>
      intro P b
      simp only [List.foldl_cons, ufStep]
      rw [ih, ih _ (false || cycleStep P e.1.1 e.1.2)]
      simp [Bool.or_assoc]

theorem ufFold_partOf {es : List ((Int × Int) × Int)} {s : List Int} :
    ∀ {P : List (List Int)} {b : Bool}, PartOf P s →
      PartOf (es.foldl ufStep (P, b)).1 s := by
  induction es with
  | nil => intro P b hp; exact hp
  | cons e es ih =>
      intro P b hp
      simp only [List.foldl_cons, ufStep]
      exact ih (mergeStep_partOf hp e.1.1 e.1.2)

theorem ufFold_count {es : List ((Int × Int) × Int)} {s : List Int} :
    ∀ {P : List (List Int)}, PartOf P s →
      (∀ e ∈ es, e.1.1 ∈ s ∧ e.1.2 ∈ s) →
      (es.foldl ufStep (P, false)).2 = false →
      (es.foldl ufStep (P, false)).1.length + es.length = P.length := by
  induction es with
  | nil => intro P _ _ _; simp
  | cons e es ih =>
      intro P hp hes hflag
      simp only [List.foldl_cons, ufStep, Bool.false_or] at hflag ⊢
      have hsnd := ufFold_snd_acc es (mergeStep P e.1.1 e.1.2) (cycleStep P e.1.1 e.1.2)
      rw [hsnd] at hflag
      have hcyc : cycleStep P e.1.1 e.1.2 = false := by
        cases h : cycleStep P e.1.1 e.1.2
        · rfl
        · rw [h] at hflag; simp at hflag
      have hrest : (es.foldl ufStep (mergeStep P e.1.1 e.1.2, false)).2 = false := by
        rw [hcyc] at hflag; simpa using hflag
      have hm := mergeStep_length hp (hes e (by simp)).1 (hes e (by simp)).2 hcyc
      have hih := ih (mergeStep_partOf hp e.1.1 e.1.2)
        (fun x hx => hes x (List.mem_cons_of_mem _ hx)) hrest
      rw [hcyc, ufFold_fst_acc]
      simp only [List.length_cons]
      omega

theorem ufFold_noCycle_sublist {es' es : List ((Int × Int) × Int)}
    (hsub : es'.Sublist es) {s : List Int} :
    ∀ {P Q : List (List Int)}, PartOf P s → PartOf Q s → Refines Q P →
      (es.foldl ufStep (P, false)).2 = false →
      (es'.foldl ufStep (Q, false)).2 = false ∧
        Refines (es'.foldl ufStep (Q, false)).1 (es.foldl ufStep (P, false)).1 := by
  induction hsub with
  | slnil =>
      intro P Q _ _ hr _
      exact ⟨rfl, hr⟩
  | cons e hs ih =>
      intro P Q hp hq hr hflag
      rename_i es' es
      simp only [List.foldl_cons, ufStep, Bool.false_or] at hflag ⊢
      set P1 := mergeStep P e.1.1 e.1.2 with hP1
      have hsnd := ufFold_snd_acc es P1 (cycleStep P e.1.1 e.1.2)
      rw [hsnd] at hflag
      have hrest : (es.foldl ufStep (P1, false)).2 = false := by
        cases h : (es.foldl ufStep (P1, false)).2
        · rfl
        · rw [h] at hflag; simp at hflag
      have hih := ih (mergeStep_partOf hp e.1.1 e.1.2) hq
        (refines_trans hr (refines_mergeStep_self hp e.1.1 e.1.2)) hrest
      rw [ufFold_fst_acc es]
      exact hih
  | cons₂ e hs ih =>
      intro P Q hp hq hr hflag
      rename_i es' es
      simp only [List.foldl_cons, ufStep, Bool.false_or] at hflag ⊢
      have hsnd := ufFold_snd_acc es (mergeStep P e.1.1 e.1.2) (cycleStep P e.1.1 e.1.2)
      rw [hsnd] at hflag
      have hcyc : cycleStep P e.1.1 e.1.2 = false := by
        cases h : cycleStep P e.1.1 e.1.2
        · rfl
        · rw [h] at hflag; simp at hflag
      have hrest : (es.foldl ufStep (mergeStep P e.1.1 e.1.2, false)).2 = false := by
        rw [hcyc] at hflag; simpa using hflag
      have hcyc' : cycleStep Q e.1.1 e.1.2 = false := by
        cases h : cycleStep Q e.1.1 e.1.2
        · rfl
        · exact absurd (cycleStep_mono hp hr h) (by rw [hcyc]; simp)
      rw [hcyc, hcyc']
      exact ih (mergeStep_partOf hp e.1.1 e.1.2) (mergeStep_partOf hq e.1.1 e.1.2)
        (refines_mergeStep hp hq hr e.1.1 e.1.2) hrest

/-! ### Invariants of the graphs built by the processor -/

/-- At most one edge entry per unordered endpoint pair (the simple-graph
property of `networkx.Graph`). -/
def UniqPairs (es : List ((Int × Int) × Int)) : Prop :=
  es.Pairwise fun a b => samePair a.1 b.1 = false

/-- Invariant of every graph the processor builds over vertex list `vids`:
the node list is exactly the deduplicated vertex list, all edge endpoints
are nodes, and no unordered pair occurs twice. -/
structure GraphInv (g : Graph) (vids : List Int) : Prop where
  nodes_eq : g.nodes = addNodes [] vids
  ends_mem : ∀ e ∈ g.edges, e.1.1 ∈ g.nodes ∧ e.1.2 ∈ g.nodes
  uniq : UniqPairs g.edges

theorem addEdge_of_mem {g : Graph} {u v : Int} (i : Int)
    (hu : u ∈ g.nodes) (hv : v ∈ g.nodes) :
    g.addEdge u v i =
      if g.hasEdge u v then
        { nodes := g.nodes,
          edges := g.edges.map fun e => if samePair e.1 (u, v) then (e.1, i) else e }
      else { nodes := g.nodes, edges := g.edges ++ [((u, v), i)] } := by
  unfold Graph.addEdge
  simp [insertNode, hu, hv]

theorem addEdge_inv {g : Graph} {vids : List Int} (hg : GraphInv g vids)
    {u v : Int} (i : Int) (hu : u ∈ vids) (hv : v ∈ vids) :
    GraphInv (g.addEdge u v i) vids := by
  have hun : u ∈ g.nodes := by
    rw [hg.nodes_eq]; exact mem_addNodes.mpr (Or.inr hu)
  have hvn : v ∈ g.nodes := by
    rw [hg.nodes_eq]; exact mem_addNodes.mpr (Or.inr hv)
  rw [addEdge_of_mem i hun hvn]
  split
  · next hcond =>
      constructor
      · exact hg.nodes_eq
      · intro e he
        simp only [List.mem_map] at he
        obtain ⟨e0, he0, heq⟩ := he
        have hends := hg.ends_mem e0 he0
        subst heq
        split <;> simpa using hends
      · unfold UniqPairs
        rw [List.pairwise_map]
        refine hg.uniq.imp ?_
        intro a b hab
        split <;> split <;> simpa using hab
  · next hcond =>
      constructor
      · exact hg.nodes_eq
      · intro e he
        simp only [List.mem_append, List.mem_singleton] at he
        rcases he with he0 | rfl
        · exact hg.ends_mem e he0
        · exact ⟨hun, hvn⟩
      · unfold UniqPairs
        rw [List.pairwise_append]
        refine ⟨hg.uniq, by simp, ?_⟩
        intro a ha b hb
        simp only [List.mem_singleton] at hb
        subst hb
        simp only [Graph.hasEdge, List.any_eq_true, not_exists] at hcond
        cases hsp : samePair a.1 (u, v)
        · rfl
        · exact absurd ⟨ha, hsp⟩ (hcond a)

theorem foldl_build_inv {vids : List Int}
    {L : List ((Int × Int) × (Bool × Int))} :
    ∀ {g0 : Graph}, GraphInv g0 vids →
      (∀ pe ∈ L, pe.1.1 ∈ vids ∧ pe.1.2 ∈ vids) →
      GraphInv (L.foldl
        (fun g pe => if pe.2.1 then g.addEdge pe.1.1 pe.1.2 pe.2.2 else g) g0) vids := by
  induction L with
  | nil => intro g0 hg _; exact hg
  | cons pe L ih =>
      intro g0 hg hL
      simp only [List.foldl_cons]
      have hstep : GraphInv (if pe.2.1 then g0.addEdge pe.1.1 pe.1.2 pe.2.2 else g0) vids := by
        split
        · exact addEdge_inv hg _ (hL pe (by simp)).1 (hL pe (by simp)).2
        · exact hg
      exact ih hstep fun x hx => hL x (List.mem_cons_of_mem _ hx)

theorem buildGraph_inv {vids ids : List Int} {pairs : List (Int × Int)}
    {flags : List Bool} (hp : ∀ p ∈ pairs, p.1 ∈ vids ∧ p.2 ∈ vids) :
    GraphInv (buildGraph vids pairs flags ids) vids := by
  refine foldl_build_inv ⟨rfl, by simp, by simp [UniqPairs]⟩ ?_
  intro pe hpe
  exact hp pe.1 (List.of_mem_zip hpe).1

theorem foldl_trial_inv {vids : List Int} {status : Int → Bool}
    {L : List (Int × (Int × Int))} :
    ∀ {g0 : Graph}, GraphInv g0 vids →
      (∀ ep ∈ L, ep.2.1 ∈ vids ∧ ep.2.2 ∈ vids) →
      GraphInv (L.foldl
        (fun g ep => if status ep.1 then g.addEdge ep.2.1 ep.2.2 ep.1 else g) g0) vids := by
  induction L with
  | nil => intro g0 hg _; exact hg
  | cons ep L ih =>
      intro g0 hg hL
      simp only [List.foldl_cons]
      have hstep : GraphInv (if status ep.1 then g0.addEdge ep.2.1 ep.2.2 ep.1 else g0) vids := by
        split
        · exact addEdge_inv hg _ (hL ep (by simp)).1 (hL ep (by simp)).2
        · exact hg
      exact ih hstep fun x hx => hL x (List.mem_cons_of_mem _ hx)

theorem trialGraph_inv {vids ids : List Int} {pairs : List (Int × Int)}
    {status : Int → Bool} (hp : ∀ p ∈ pairs, p.1 ∈ vids ∧ p.2 ∈ vids) :
    GraphInv (trialGraph vids ids pairs status) vids := by
  refine foldl_trial_inv ⟨rfl, by simp, by simp [UniqPairs]⟩ ?_
  intro ep hep
  exact hp ep.2 (List.of_mem_zip hep).2

/-! ### The enabled edge of a query is present in the stored graph -/

theorem hasEdge_addEdge {g : Graph} (u v i : Int) :
    (g.addEdge u v i).hasEdge u v = true := by
  unfold Graph.addEdge
  split
  · next hcond =>
      simp only [Graph.hasEdge, List.any_eq_true] at hcond ⊢
      obtain ⟨e0, he0, hsp⟩ := hcond
      exact ⟨(e0.1, i), List.mem_map.mpr ⟨e0, he0, by rw [if_pos hsp]⟩, hsp⟩
  · simp [Graph.hasEdge, samePair_refl]

theorem hasEdge_addEdge_mono {g : Graph} {a b : Int} (u v i : Int)
    (h : g.hasEdge a b = true) : (g.addEdge u v i).hasEdge a b = true := by
  unfold Graph.addEdge
  simp only [Graph.hasEdge, List.any_eq_true] at h ⊢
  obtain ⟨e0, he0, hsp⟩ := h
  split
  · by_cases hx : samePair e0.1 (u, v) = true
    · exact ⟨(e0.1, i), List.mem_map.mpr ⟨e0, he0, by rw [if_pos hx]⟩, hsp⟩
    · exact ⟨e0, List.mem_map.mpr ⟨e0, he0, by rw [if_neg hx]⟩, hsp⟩
  · exact ⟨e0, List.mem_append_left _ he0, hsp⟩

theorem foldl_build_hasEdge_mono {a b : Int} {L : List ((Int × Int) × (Bool × Int))} :
    ∀ {g0 : Graph}, g0.hasEdge a b = true →
      (L.foldl
        (fun g pe => if pe.2.1 then g.addEdge pe.1.1 pe.1.2 pe.2.2 else g) g0).hasEdge
          a b = true := by
  induction L with
  | nil => intro g0 h; exact h
  | cons r L ih =>
      intro g0 h
      simp only [List.foldl_cons]
      apply ih
      split
      · exact hasEdge_addEdge_mono _ _ _ h
      · exact h

theorem foldl_build_hasEdge {L : List ((Int × Int) × (Bool × Int))} :
    ∀ {g0 : Graph} {pe}, pe ∈ L → pe.2.1 = true →
      (L.foldl
        (fun g pe => if pe.2.1 then g.addEdge pe.1.1 pe.1.2 pe.2.2 else g) g0).hasEdge
          pe.1.1 pe.1.2 = true := by
  induction L with
  | nil => intro g0 pe h; simp at h
  | cons q L ih =>
      intro g0 pe hmem hen
      simp only [List.foldl_cons]
      rcases List.mem_cons.mp hmem with rfl | hmem2
      · rw [if_pos hen]
        exact foldl_build_hasEdge_mono (hasEdge_addEdge pe.1.1 pe.1.2 pe.2.2)
      · exact ih hmem2 hen

/-! ### Removing one present edge from a duplicate-free edge list -/

theorem filter_not_samePair_length {pr : Int × Int} {es : List ((Int × Int) × Int)}
    (hu : UniqPairs es) (h : ∃ e ∈ es, samePair e.1 pr = true) :
    (es.filter fun e => !samePair e.1 pr).length + 1 = es.length := by
  induction es with
  | nil => simp at h
  | cons a es ih =>
      have hu2 := List.pairwise_cons.mp hu
      cases hsp : samePair a.1 pr
      · have h2 : ∃ e ∈ es, samePair e.1 pr = true := by
          obtain ⟨e, he, hespr⟩ := h
          rcases List.mem_cons.mp he with rfl | he2
          · rw [hespr] at hsp; exact absurd hsp (by simp)
          · exact ⟨e, he2, hespr⟩
        simp only [List.filter_cons, hsp]
        simpa using ih hu2.2 h2
      · have hnone : ∀ e ∈ es, samePair e.1 pr = false := by
          intro e he
          cases hx : samePair e.1 pr
          · rfl
          · exact absurd (samePair_symm (samePair_trans hx (samePair_symm hsp)))
              (by simp [hu2.1 e he])
        simp only [List.filter_cons, hsp]
        have : es.filter (fun e => !samePair e.1 pr) = es :=
          List.filter_eq_self.mpr fun e he => by rw [hnone e he]; simp
        simp [this]

/-! ### Spanning-tree counting -/

theorem connectedB_one {g : Graph} (h : g.connectedB = true) :
    g.components.length = 1 := by
  simpa [Graph.connectedB] using h

theorem tree_count {g : Graph} {vids : List Int} (hinv : GraphInv g vids)
    (hcon : g.connectedB = true) (hcyc : g.hasCycleB = false) :
    g.edges.length + 1 = (initP g.nodes).length := by
  have hpart := partOf_init g.nodes
  have hends : ∀ e ∈ g.edges, e.1.1 ∈ g.nodes ∧ e.1.2 ∈ g.nodes := hinv.ends_mem
  have hcount := ufFold_count hpart hends hcyc
  have h1 : g.components.length = 1 := connectedB_one hcon
  unfold Graph.components ufRun at h1
  omega

/-- Removing one enabled (present) edge from a connected acyclic graph
leaves exactly two connected components. -/
theorem removeEdge_two_components {g : Graph} {vids : List Int}
    (hinv : GraphInv g vids) (hcon : g.connectedB = true)
    (hcyc : g.hasCycleB = false) {u v : Int} (he : g.hasEdge u v = true) :
    (g.removeEdge u v).components.length = 2 := by
  have hpart := partOf_init g.nodes
  have hends : ∀ e ∈ g.edges, e.1.1 ∈ g.nodes ∧ e.1.2 ∈ g.nodes := hinv.ends_mem
  have hsub : (g.edges.filter fun e => !samePair e.1 (u, v)).Sublist g.edges :=
    List.filter_sublist _
  have hnoCyc := (ufFold_noCycle_sublist hsub hpart hpart (refines_refl _) hcyc).1
  have hends2 : ∀ e ∈ g.edges.filter fun e => !samePair e.1 (u, v),
      e.1.1 ∈ g.nodes ∧ e.1.2 ∈ g.nodes :=
    fun e hme => hends e (hsub.subset hme)
  have hcount2 := ufFold_count hpart hends2 hnoCyc
  have hcount := ufFold_count hpart hends hcyc
  have h1 : g.components.length = 1 := connectedB_one hcon
  have hexists : ∃ e ∈ g.edges, samePair e.1 (u, v) = true := by
    simpa [Graph.hasEdge] using he
  have hlen := filter_not_samePair_length hinv.uniq hexists
  have hgoal : (g.removeEdge u v).components.length =
      ((g.edges.filter fun e => !samePair e.1 (u, v)).foldl ufStep
        (initP g.nodes, false)).1.length := rfl
  rw [hgoal]
  unfold Graph.components ufRun at h1
  omega

/-! ### Facts available after a successful construction -/

theorem construct_ok_facts {v e : List Int} {p : List (Int × Int)}
    {f : List Bool} {s : Int} {gp : GraphProcessor}
    (h : construct v e p f s = .ok gp) :
    gp = ⟨v, e, p, f, s, buildGraph v p f e⟩ ∧
    (∀ a ∈ v, a ∉ e) ∧ p.length = e.length ∧
    (∀ q ∈ p, q.1 ∈ v ∧ q.2 ∈ v) ∧ f.length = e.length ∧ s ∈ v ∧
    (buildGraph v p f e).connectedB = true ∧
    (buildGraph v p f e).hasCycleB = false := by
  unfold construct at h
  by_cases c1 : ∀ a ∈ v, a ∉ e
  case neg => rw [if_pos c1] at h; exact absurd h (by simp)
  rw [if_neg (not_not_intro c1)] at h
  by_cases c2 : p.length = e.length
  case neg => rw [if_pos c2] at h; exact absurd h (by simp)
  rw [if_neg (not_not_intro c2)] at h
  by_cases c3 : ∀ q ∈ p, q.1 ∈ v ∧ q.2 ∈ v
  case neg => rw [if_pos c3] at h; exact absurd h (by simp)
  rw [if_neg (not_not_intro c3)] at h
  by_cases c4 : f.length = e.length
  case neg => rw [if_pos c4] at h; exact absurd h (by simp)
  rw [if_neg (not_not_intro c4)] at h
  by_cases c5 : s ∈ v
  case neg => rw [if_pos c5] at h; exact absurd h (by simp)
  rw [if_neg (not_not_intro c5)] at h
  by_cases c6 : (buildGraph v p f e).connectedB = true
  case neg => rw [if_pos (by simpa using c6)] at h; exact absurd h (by simp)
  rw [if_neg (by simpa using not_not_intro c6)] at h
  by_cases c7 : (buildGraph v p f e).hasCycleB = true
  case pos => rw [if_pos c7] at h; exact absurd h (by simp)
  rw [if_neg c7] at h
  have hgp : (⟨v, e, p, f, s, buildGraph v p f e⟩ : GraphProcessor) = gp := by
    simpa using h
  exact ⟨hgp.symm, c1, c2, c3, c4, c5, c6, by simpa using c7⟩

/-- Both queries return the processor state unchanged: the removal happens
on a copy and every trial graph is a fresh object. -/
theorem queries_preserve_state (gp : GraphProcessor) (x : Int) :
    (find_downstream_vertices gp x).2 = gp ∧
    (find_alternative_edges gp x).2 = gp := by
  constructor
  · unfold find_downstream_vertices
    split
    · rfl
    · simp only []
      split <;> rfl
  · unfold find_alternative_edges
    split
    · rfl
    · simp only []
      split <;> rfl

theorem nthD_zip {a : List α} {b : List β} {i : Nat} {da : α} {db : β}
    (h1 : i < a.length) (h2 : i < b.length) :
    nthD (a.zip b) i (da, db) = (nthD a i da, nthD b i db) := by
  induction a generalizing b i with
  | nil => simp at h1
  | cons x a ih =>
      cases b with
      | nil => simp at h2
      | cons y b =>
          cases i with
          | zero => simp [List.zip_cons_cons, nthD]
          | succ i =>
              simp only [List.zip_cons_cons, nthD]
              exact ih (by simpa using h1) (by simpa using h2)

/-! ### Analysis of `find_downstream_vertices` on a valid processor -/

theorem downstream_analysis {v e : List Int} {p : List (Int × Int)}
    {f : List Bool} {s x : Int} {gp : GraphProcessor}
    (hok : construct v e p f s = .ok gp) (hx : x ∈ e)
    (hen : nthD f (firstIdx e x) false = true) :
    ∃ l sc,
      ((buildGraph v p f e).removeEdge (nthD p (firstIdx e x) (0, 0)).1
          (nthD p (firstIdx e x) (0, 0)).2).components.length = 2 ∧
      (find_downstream_vertices gp x).1 = .ok l ∧
      ((buildGraph v p f e).removeEdge (nthD p (firstIdx e x) (0, 0)).1
          (nthD p (firstIdx e x) (0, 0)).2).components.find?
        (fun c => decide (s ∈ c)) = some sc ∧
      (∀ w, w ∈ l → w ∉ sc) ∧ (∀ w, w ∈ v ↔ (w ∈ l ∨ w ∈ sc)) ∧ l ≠ [] := by
  obtain ⟨hgp, _, hlp, hends, hlf, hsv, hcon, hcyc⟩ := construct_ok_facts hok
  have hvids : gp.vertex_ids = v := by rw [hgp]
  have heids : gp.edge_ids = e := by rw [hgp]
  have hpairs : gp.edge_vertex_id_pairs = p := by rw [hgp]
  have hflags : gp.edge_enabled = f := by rw [hgp]
  have hsrc : gp.source_vertex_id = s := by rw [hgp]
  have hgraph : gp.graph = buildGraph v p f e := by rw [hgp]
  have hie : firstIdx e x < e.length := firstIdx_lt_length hx
  have hip : firstIdx e x < p.length := by rw [hlp]; exact hie
  have hif : firstIdx e x < f.length := by rw [hlf]; exact hie
  have hmemzip : (nthD p (firstIdx e x) (0, 0),
      (nthD f (firstIdx e x) false, nthD e (firstIdx e x) 0)) ∈ p.zip (f.zip e) := by
    have h1 : (nthD p (firstIdx e x) (0, 0),
        nthD (f.zip e) (firstIdx e x) ((false : Bool), (0 : Int))) ∈ p.zip (f.zip e) :=
      mem_zip_nthD (0, 0) ((false : Bool), (0 : Int)) hip
        (by rw [List.length_zip]; exact lt_min hif hie)
    rw [nthD_zip hif hie] at h1
    exact h1
  have hhas : (buildGraph v p f e).hasEdge (nthD p (firstIdx e x) (0, 0)).1
      (nthD p (firstIdx e x) (0, 0)).2 = true :=
    foldl_build_hasEdge hmemzip (by simpa using hen)
  have hinv : GraphInv (buildGraph v p f e) v := buildGraph_inv hends
  have h2 := removeEdge_two_components hinv hcon hcyc hhas
  have hpart : PartOf ((buildGraph v p f e).removeEdge
      (nthD p (firstIdx e x) (0, 0)).1
      (nthD p (firstIdx e x) (0, 0)).2).components (buildGraph v p f e).nodes :=
    ufFold_partOf (partOf_init _)
  have hsmem : s ∈ (buildGraph v p f e).nodes := by
    rw [hinv.nodes_eq]; exact mem_addNodes.mpr (Or.inr hsv)
  obtain ⟨c1, c2, hcc⟩ := List.length_eq_two.mp h2
  rw [hcc] at hpart
  have hnd12 : c1 ≠ c2 := by
    have := partOf_nodup hpart
    simp only [List.nodup_cons, List.mem_singleton] at this
    exact this.1
  have hdisj12 : ∀ w, w ∈ c1 → w ∉ c2 := by
    have := List.pairwise_cons.mp hpart.disj
    exact fun w hw => this.1 c2 (by simp) w hw
  have hcover : ∀ w, (w ∈ c1 ∨ w ∈ c2) ↔ w ∈ v := by
    intro w
    have hc := hpart.cover w
    rw [hinv.nodes_eq] at hc
    constructor
    · intro hw
      rcases hw with hw | hw
      · exact (mem_addNodes.mp (hc.mp ⟨c1, by simp, hw⟩)).resolve_left (by simp)
      · exact (mem_addNodes.mp (hc.mp ⟨c2, by simp, hw⟩)).resolve_left (by simp)
    · intro hw
      obtain ⟨c, hcm, hwc⟩ := hc.mpr (mem_addNodes.mpr (Or.inr hw))
      simp only [List.mem_cons, List.mem_singleton, List.not_mem_nil, or_false] at hcm
      rcases hcm with rfl | rfl
      · exact Or.inl hwc
      · exact Or.inr hwc
  have hne1 : c1 ≠ [] := hpart.nonempty c1 (by simp)
  have hne2 : c2 ≠ [] := hpart.nonempty c2 (by simp)
  have hsin : s ∈ c1 ∨ s ∈ c2 := by
    obtain ⟨c, hcm, hsc⟩ := hpart.cover s |>.mpr hsmem
    simp only [List.mem_cons, List.mem_singleton, List.not_mem_nil, or_false] at hcm
    rcases hcm with rfl | rfl
    · exact Or.inl hsc
    · exact Or.inr hsc
  have hfd : (find_downstream_vertices gp x).1 =
      downstreamCore gp (nthD p (firstIdx e x) (0, 0)) := by
    unfold find_downstream_vertices
    rw [if_neg (by rw [heids]; exact not_not_intro hx)]
    simp only [heids, hflags, hpairs]
    rw [if_neg (by rw [hen]; simp)]
  rcases Decidable.em (s ∈ c1) with hs1 | hs1
  · have hfind1 : ((buildGraph v p f e).removeEdge (nthD p (firstIdx e x) (0, 0)).1
        (nthD p (firstIdx e x) (0, 0)).2).components.find?
          (fun c => decide (s ∈ c)) = some c1 := by
      rw [hcc]; exact List.find?_cons_of_pos _ (by simpa using hs1)
    have hfind2 : ((buildGraph v p f e).removeEdge (nthD p (firstIdx e x) (0, 0)).1
        (nthD p (firstIdx e x) (0, 0)).2).components.find?
          (fun c => decide (c ≠ c1)) = some c2 := by
      rw [hcc]
      rw [List.find?_cons_of_neg _ (by simp)]
      exact List.find?_cons_of_pos _ (by simpa using fun h => hnd12 h.symm)
    have hdc : downstreamCore gp (nthD p (firstIdx e x) (0, 0)) = .ok c2 := by
      unfold downstreamCore
      simp only [hgraph, hsrc, hfind1, hfind2]
    refine ⟨c2, c1, h2, by rw [hfd, hdc], hfind1, ?_, ?_, hne2⟩
    · exact fun w hw hwc1 => hdisj12 w hwc1 hw
    · intro w
      rw [← hcover w]
      tauto
  · have hs2 : s ∈ c2 := hsin.resolve_left hs1
    have hfind1 : ((buildGraph v p f e).removeEdge (nthD p (firstIdx e x) (0, 0)).1
        (nthD p (firstIdx e x) (0, 0)).2).components.find?
          (fun c => decide (s ∈ c)) = some c2 := by
      rw [hcc]
      rw [List.find?_cons_of_neg _ (by simpa using hs1)]
      exact List.find?_cons_of_pos _ (by simpa using hs2)
    have hfind2 : ((buildGraph v p f e).removeEdge (nthD p (firstIdx e x) (0, 0)).1
        (nthD p (firstIdx e x) (0, 0)).2).components.find?
          (fun c => decide (c ≠ c2)) = some c1 := by
      rw [hcc]
      exact List.find?_cons_of_pos _ (by simpa using hnd12)
    have hdc : downstreamCore gp (nthD p (firstIdx e x) (0, 0)) = .ok c1 := by
      unfold downstreamCore
      simp only [hgraph, hsrc, hfind1, hfind2]
    refine ⟨c1, c2, h2, by rw [hfd, hdc], hfind1, ?_, ?_, hne1⟩
    · exact hdisj12
    · intro w
      rw [← hcover w]

/-! ### Concrete instances (the pytest fixture of the repository) -/

def fixV : List Int := [0, 2, 4, 6, 10]

def fixE : List Int := [1, 3, 5, 7, 8, 9]

def fixP : List (Int × Int) := [(0, 2), (0, 4), (0, 6), (2, 4), (4, 6), (2, 10)]

def fixF : List Bool := [true, true, true, false, false, true]

def gpFix : GraphProcessor :=
  ⟨fixV, fixE, fixP, fixF, 10, buildGraph fixV fixP fixF fixE⟩

/-! ### Claim theorems -/

/-- C2: on a validly constructed processor, for a declared and currently
enabled edge, `find_downstream_vertices` returns the vertex set of the
component not containing the source after the edge is removed: the result
is disjoint from the source's component, and together they cover exactly
the vertex set. -/
theorem claim_C2 (v e : List Int) (p : List (Int × Int)) (f : List Bool)
    (s x : Int) (gp : GraphProcessor) (hok : construct v e p f s = .ok gp)
    (hx : x ∈ gp.edge_ids)
    (hen : nthD gp.edge_enabled (firstIdx gp.edge_ids x) false = true) :
    ∃ l sc,
      (find_downstream_vertices gp x).1 = .ok l ∧
      (gp.graph.removeEdge
          (nthD gp.edge_vertex_id_pairs (firstIdx gp.edge_ids x) (0, 0)).1
          (nthD gp.edge_vertex_id_pairs (firstIdx gp.edge_ids x) (0, 0)).2).components.find?
        (fun c => decide (gp.source_vertex_id ∈ c)) = some sc ∧
      (∀ w, w ∈ l → w ∉ sc) ∧ (∀ w, w ∈ gp.vertex_ids ↔ (w ∈ l ∨ w ∈ sc)) := by
  obtain ⟨hgp, _, _, _, _, _, _, _⟩ := construct_ok_facts hok
  have hvids : gp.vertex_ids = v := by rw [hgp]
  have heids : gp.edge_ids = e := by rw [hgp]
  have hpairs : gp.edge_vertex_id_pairs = p := by rw [hgp]
  have hflags : gp.edge_enabled = f := by rw [hgp]
  have hsrc : gp.source_vertex_id = s := by rw [hgp]
  have hgraph : gp.graph = buildGraph v p f e := by rw [hgp]
  rw [heids] at hx
  rw [heids, hflags] at hen
  rw [hvids, heids, hpairs, hsrc, hgraph]
  obtain ⟨l, sc, _, hfd, hfind, hdisj, hcov, _⟩ := downstream_analysis hok hx hen
  exact ⟨l, sc, hfd, hfind, hdisj, hcov⟩

/-- C2 witness: the fixture network, querying enabled edge 3. -/
theorem claim_C2_witness :
    ∃ l sc,
      (find_downstream_vertices gpFix 3).1 = .ok l ∧
      (gpFix.graph.removeEdge
          (nthD gpFix.edge_vertex_id_pairs (firstIdx gpFix.edge_ids 3) (0, 0)).1
          (nthD gpFix.edge_vertex_id_pairs (firstIdx gpFix.edge_ids 3) (0, 0)).2).components.find?
        (fun c => decide (gpFix.source_vertex_id ∈ c)) = some sc ∧
      (∀ w, w ∈ l → w ∉ sc) ∧ (∀ w, w ∈ gpFix.vertex_ids ↔ (w ∈ l ∨ w ∈ sc)) :=
  claim_C2 fixV fixE fixP fixF 10 3 gpFix (by rfl) (by decide) (by decide)

/-- C6: both queries leave the stored processor state (the five input
fields and the internal graph) exactly as it was, for every argument and
on every result path. -/
theorem claim_C6 (gp : GraphProcessor) (x : Int) :
    (find_downstream_vertices gp x).2 = gp ∧
    (find_alternative_edges gp x).2 = gp :=
  queries_preserve_state gp x

/-- C7: both queries raise `IDNotFoundError` for an undeclared edge id; on
a declared but disabled edge, `find_downstream_vertices` returns the empty
list while `find_alternative_edges` raises `EdgeAlreadyDisabledError`. -/
theorem claim_C7 (gp : GraphProcessor) (x : Int) :
    (x ∉ gp.edge_ids →
      (find_downstream_vertices gp x).1 = .error .idNotFound ∧
      (find_alternative_edges gp x).1 = .error .idNotFound) ∧
    (x ∈ gp.edge_ids →
      nthD gp.edge_enabled (firstIdx gp.edge_ids x) false = false →
      (find_downstream_vertices gp x).1 = .ok [] ∧
      (find_alternative_edges gp x).1 = .error .edgeAlreadyDisabled) := by
  constructor
  · intro h
    constructor
    · unfold find_downstream_vertices
      rw [if_pos h]
    · unfold find_alternative_edges
      rw [if_pos h]
  · intro h hf
    constructor
    · unfold find_downstream_vertices
      rw [if_neg (not_not_intro h)]
      simp only []
      rw [if_pos hf]
    · unfold find_alternative_edges
      rw [if_neg (not_not_intro h)]
      simp only []
      rw [if_pos hf]

/-- C7 witness: undeclared edge 11 and declared-but-disabled edge 7 of the
fixture network. -/
theorem claim_C7_witness :
    ((find_downstream_vertices gpFix 11).1 = .error .idNotFound ∧
      (find_alternative_edges gpFix 11).1 = .error .idNotFound) ∧
    ((find_downstream_vertices gpFix 7).1 = .ok [] ∧
      (find_alternative_edges gpFix 7).1 = .error .edgeAlreadyDisabled) :=
  ⟨(claim_C7 gpFix 11).1 (by decide), (claim_C7 gpFix 7).2 (by decide) (by decide)⟩

/-- C9: on a validly constructed processor, removing a declared enabled
edge from the enabled subgraph yields exactly two connected components, so
the final fallback of `find_downstream_vertices` (returning `[]` for an
enabled edge) is unreachable. -/
theorem claim_C9 (v e : List Int) (p : List (Int × Int)) (f : List Bool)
    (s x : Int) (gp : GraphProcessor) (hok : construct v e p f s = .ok gp)
    (hx : x ∈ gp.edge_ids)
    (hen : nthD gp.edge_enabled (firstIdx gp.edge_ids x) false = true) :
    (gp.graph.removeEdge
        (nthD gp.edge_vertex_id_pairs (firstIdx gp.edge_ids x) (0, 0)).1
        (nthD gp.edge_vertex_id_pairs (firstIdx gp.edge_ids x) (0, 0)).2).components.length = 2 ∧
    (find_downstream_vertices gp x).1 ≠ .ok [] := by
  obtain ⟨hgp, _, _, _, _, _, _, _⟩ := construct_ok_facts hok
  have heids : gp.edge_ids = e := by rw [hgp]
  have hpairs : gp.edge_vertex_id_pairs = p := by rw [hgp]
  have hflags : gp.edge_enabled = f := by rw [hgp]
  have hgraph : gp.graph = buildGraph v p f e := by rw [hgp]
  rw [heids] at hx
  rw [heids, hflags] at hen
  rw [heids, hpairs, hgraph]
  obtain ⟨l, _, h2, hfd, _, _, _, hlne⟩ := downstream_analysis hok hx hen
  refine ⟨h2, ?_⟩
  rw [hfd]
  simpa using hlne

/-- C9 witness: removing enabled edge 3 of the fixture network yields two
components and a nonempty downstream set. -/
theorem claim_C9_witness :
    (gpFix.graph.removeEdge
        (nthD gpFix.edge_vertex_id_pairs (firstIdx gpFix.edge_ids 3) (0, 0)).1
        (nthD gpFix.edge_vertex_id_pairs (firstIdx gpFix.edge_ids 3) (0, 0)).2).components.length = 2 ∧
    (find_downstream_vertices gpFix 3).1 ≠ .ok [] :=
  claim_C9 fixV fixE fixP fixF 10 3 gpFix (by rfl) (by decide) (by decide)

/-- Modelled from the spec: the validation sequence in the claimed order
(identifier-disjointness, endpoint/edge-id length, endpoint existence,
enabled/edge-id length, source existence, connectivity, acyclicity), each
check mapped to its error kind, returning the first failure. -/
def specFirstFailure (vertex_ids edge_ids : List Int) (pairs : List (Int × Int))
    (flags : List Bool) (src : Int) : Option PyErr :=
  if ¬ (∀ v ∈ vertex_ids, v ∉ edge_ids) then some .idNotUnique
  else if pairs.length ≠ edge_ids.length then some .inputLengthDoesNotMatch
  else if ¬ (∀ p ∈ pairs, p.1 ∈ vertex_ids ∧ p.2 ∈ vertex_ids) then some .idNotFound
  else if flags.length ≠ edge_ids.length then some .inputLengthDoesNotMatch
  else if src ∉ vertex_ids then some .idNotFound
  else if ¬ (buildGraph vertex_ids pairs flags edge_ids).connectedB then
    some .graphNotFullyConnected
  else if (buildGraph vertex_ids pairs flags edge_ids).hasCycleB then
    some .graphCycle
  else none

/-- C3: construction runs the seven checks in the claimed order; the first
failing check determines the single raised error, and construction succeeds
exactly when every check passes. -/
theorem claim_C3 (v e : List Int) (p : List (Int × Int)) (f : List Bool) (s : Int) :
    (∀ err, construct v e p f s = .error err ↔ specFirstFailure v e p f s = some err) ∧
    ((construct v e p f s).isOk = true ↔ specFirstFailure v e p f s = none) := by
  constructor
  · intro err
    unfold construct specFirstFailure
    repeat' split
    all_goals simp_all
  · unfold construct specFirstFailure
    repeat' split
    all_goals simp_all [Except.isOk, Except.toBool]

/-! ### The duplicate-endpoint-pair instance (for C4 and C5) -/

def dupV : List Int := [1, 2]

def dupE : List Int := [10, 11]

def dupP : List (Int × Int) := [(1, 2), (1, 2)]

def dupF : List Bool := [true, true]

def gpDup : GraphProcessor := ⟨dupV, dupE, dupP, dupF, 1, buildGraph dupV dupP dupF dupE⟩

/-- C4 counterexample: two enabled edges with the same endpoint pair are
collapsed by the simple graph, so construction succeeds while the number of
enabled entries in the flag list (2) is not `|V| - 1 = 1`. -/
theorem claim_C4_cex :
    construct dupV dupE dupP dupF 1 = .ok gpDup ∧
    ¬ (dupF.filter (fun b => b)).length = dupV.length - 1 := by
  exact ⟨by rfl, by decide⟩

theorem addNodes_append_of_disjoint (l : List Int) :
    ∀ (acc : List Int), (∀ x ∈ l, x ∉ acc) → l.Nodup →
      addNodes acc l = acc ++ l := by
  induction l with
  | nil => intro acc _ _; simp [addNodes]
  | cons a l ih =>
      intro acc hdis hnd
      show addNodes (insertNode acc a) l = acc ++ a :: l
      have h1 : insertNode acc a = acc ++ [a] := by
        simp [insertNode, hdis a (by simp)]
      rw [h1]
      have hnd2 := List.nodup_cons.mp hnd
      rw [ih (acc ++ [a]) ?_ hnd2.2]
      · simp
      · intro y hy
        simp only [List.mem_append, List.mem_singleton]
        rintro (hya | rfl)
        · exact hdis y (List.mem_cons_of_mem _ hy) hya
        · exact hnd2.1 hy

theorem addNodes_idem (l : List Int) :
    addNodes [] (addNodes [] l) = addNodes [] l := by
  have hnd : (addNodes [] l).Nodup := nodup_addNodes List.nodup_nil
  have h := addNodes_append_of_disjoint (addNodes [] l) [] (by simp) hnd
  simpa using h

/-- C4 amended: for a successful construction, the enabled subgraph (with
multi-edges collapsed) is connected and acyclic, and its number of stored
edges is exactly the number of distinct vertices minus one; the invariant
persists because the queries leave the state unchanged. -/
theorem claim_C4_amended (v e : List Int) (p : List (Int × Int)) (f : List Bool)
    (s : Int) (gp : GraphProcessor) (hok : construct v e p f s = .ok gp) :
    gp.graph.connectedB = true ∧ gp.graph.hasCycleB = false ∧
    gp.graph.edges.length + 1 = (addNodes [] v).length ∧
    (∀ x, (find_downstream_vertices gp x).2 = gp ∧
      (find_alternative_edges gp x).2 = gp) := by
  obtain ⟨hgp, _, _, hends, _, _, hcon, hcyc⟩ := construct_ok_facts hok
  have hgraph : gp.graph = buildGraph v p f e := by rw [hgp]
  have hinv : GraphInv (buildGraph v p f e) v := buildGraph_inv hends
  have hcount := tree_count hinv hcon hcyc
  rw [hgraph]
  refine ⟨hcon, hcyc, ?_, fun x => queries_preserve_state gp x⟩
  have hlen : (initP (buildGraph v p f e).nodes).length = (addNodes [] v).length := by
    rw [hinv.nodes_eq]
    unfold initP
    rw [List.length_map, addNodes_idem]
  rw [← hlen]
  exact hcount

/-- C4 witness: the fixture network has 4 enabled (distinct-pair) edges and
5 vertices. -/
theorem claim_C4_amended_witness :
    gpFix.graph.connectedB = true ∧ gpFix.graph.hasCycleB = false ∧
    gpFix.graph.edges.length + 1 = (addNodes [] fixV).length ∧
    (∀ x, (find_downstream_vertices gpFix x).2 = gpFix ∧
      (find_alternative_edges gpFix x).2 = gpFix) :=
  claim_C4_amended fixV fixE fixP fixF 10 gpFix (by rfl)

/-- C5 counterexample: an input with two enabled edges on the same
unordered endpoint pair does not raise `GraphCycleError`; construction
succeeds, and the graph stores a single adjacency for the pair whose id
tag is the one of the second edge (attribute overwritten). -/
theorem claim_C5_cex :
    construct dupV dupE dupP dupF 1 = .ok gpDup ∧
    gpDup.graph.edges = [((1, 2), 11)] := by
  exact ⟨by rfl, by rfl⟩

/-- C5 amended: multi-edges are collapsed, not kept distinct: in every
successfully constructed processor the stored adjacency list has at most
one entry per unordered endpoint pair (later enabled duplicates only
overwrite the id tag), so duplicated enabled pairs create no cycle. -/
theorem claim_C5_amended (v e : List Int) (p : List (Int × Int)) (f : List Bool)
    (s : Int) (gp : GraphProcessor) (hok : construct v e p f s = .ok gp) :
    gp.graph.edges.Pairwise (fun a b => samePair a.1 b.1 = false) := by
  obtain ⟨hgp, _, _, hends, _, _, _, _⟩ := construct_ok_facts hok
  have hgraph : gp.graph = buildGraph v p f e := by rw [hgp]
  rw [hgraph]
  exact (buildGraph_inv hends).uniq

/-- C5 witness: the duplicate-pair instance constructs successfully and its
collapsed edge list satisfies the pairwise-distinct-pairs property. -/
theorem claim_C5_amended_witness :
    gpDup.graph.edges.Pairwise (fun a b => samePair a.1 b.1 = false) :=
  claim_C5_amended dupV dupE dupP dupF 1 gpDup (by rfl)

/-- C10: `IDNotUniqueError` is raised exactly when the vertex-id set and
the edge-id set intersect (duplicates inside either list are not rejected
on that ground), and both queries resolve a repeated edge id through its
first occurrence: the flag at the first occurrence decides the
disabled-edge behaviour, and on an enabled first occurrence
`find_downstream_vertices` works on the endpoint pair stored at that first
occurrence. -/
theorem claim_C10 (v e : List Int) (p : List (Int × Int)) (f : List Bool)
    (s : Int) (gp : GraphProcessor) (x : Int) :
    (construct v e p f s = .error .idNotUnique ↔ ¬ (∀ a ∈ v, a ∉ e)) ∧
    (x ∈ gp.edge_ids →
      (nthD gp.edge_enabled (firstIdx gp.edge_ids x) false = false →
        (find_downstream_vertices gp x).1 = .ok [] ∧
        (find_alternative_edges gp x).1 = .error .edgeAlreadyDisabled) ∧
      (nthD gp.edge_enabled (firstIdx gp.edge_ids x) false = true →
        (find_alternative_edges gp x).1 = .ok (alternativeCore gp x) ∧
        (find_downstream_vertices gp x).1 =
          downstreamCore gp
            (nthD gp.edge_vertex_id_pairs (firstIdx gp.edge_ids x) (0, 0)))) := by
  constructor
  · unfold construct
    repeat' split
    all_goals simp_all
  · intro hmem
    constructor
    · intro hf
      constructor
      · unfold find_downstream_vertices
        rw [if_neg (not_not_intro hmem)]
        simp only []
        rw [if_pos hf]
      · unfold find_alternative_edges
        rw [if_neg (not_not_intro hmem)]
        simp only []
        rw [if_pos hf]
    · intro hf
      constructor
      · unfold find_alternative_edges
        rw [if_neg (not_not_intro hmem)]
        simp only []
        rw [if_neg (by rw [hf]; simp)]
      · unfold find_downstream_vertices
        rw [if_neg (not_not_intro hmem)]
        simp only []
        rw [if_neg (by rw [hf]; simp)]

/-- A valid processor whose edge-id list contains the id 10 twice, with the
first occurrence disabled and the second enabled. -/
def gpDupIds : GraphProcessor :=
  ⟨[0, 1], [10, 10], [(0, 1), (0, 1)], [false, true], 0,
    buildGraph [0, 1] [(0, 1), (0, 1)] [false, true] [10, 10]⟩

/-- C10 witness: the duplicate-id instance constructs without
`IDNotUniqueError`, and both queries treat id 10 as disabled because its
first occurrence is disabled, although its second occurrence is enabled. -/
theorem claim_C10_witness :
    ¬ (construct [0, 1] [10, 10] [(0, 1), (0, 1)] [false, true] 0 =
        .error .idNotUnique) ∧
    (find_downstream_vertices gpDupIds 10).1 = .ok [] ∧
    (find_alternative_edges gpDupIds 10).1 = .error .edgeAlreadyDisabled := by
  have h := claim_C10 [0, 1] [10, 10] [(0, 1), (0, 1)] [false, true] 0 gpDupIds 10
  refine ⟨fun hc => ?_, ((h.2 (by decide)).1 (by decide)).1,
    ((h.2 (by decide)).1 (by decide)).2⟩
  exact (by decide : ¬¬ (∀ a ∈ [(0 : Int), 1], a ∉ [(10 : Int), 10])) (h.1.mp hc)

/-! ### Duplicate-free edge-id lists: the status dictionary agrees with the
positional flags -/

theorem nthD_mem {l : List α} {j : Nat} {d : α} (h : j < l.length) :
    nthD l j d ∈ l := by
  induction l generalizing j with
  | nil => simp at h
  | cons a l ih =>
      cases j with
      | zero => simp [nthD]
      | succ j => exact List.mem_cons_of_mem _ (ih (by simpa using h))

theorem firstIdx_nthD_nodup {l : List Int} (hnd : l.Nodup) {j : Nat}
    (h : j < l.length) : firstIdx l (nthD l j 0) = j := by
  induction l generalizing j with
  | nil => simp at h
  | cons a l ih =>
      have hnd2 := List.nodup_cons.mp hnd
      cases j with
      | zero => simp [nthD, firstIdx]
      | succ j =>
          have hj : j < l.length := by simpa using h
          have hne : a ≠ nthD l j 0 := fun hc => hnd2.1 (hc ▸ nthD_mem hj)
          simp only [nthD, firstIdx, if_neg hne]
          rw [ih hnd2.2 hj]

theorem foldl_lastAssoc_skip {ks : List Int} {k : Int} (h : k ∉ ks) :
    ∀ {vs : List Bool} (acc : Option Bool),
      (ks.zip vs).foldl (fun acc q => if q.1 = k then some q.2 else acc) acc = acc := by
  induction ks with
  | nil => intro vs acc; simp
  | cons a ks ih =>
      intro vs acc
      cases vs with
      | nil => simp
      | cons b vs =>
          simp only [List.zip_cons_cons, List.foldl_cons]
          rw [if_neg (fun hc : a = k => h (by rw [← hc]; exact List.mem_cons_self a ks))]
          exact ih (fun hc => h (List.mem_cons_of_mem _ hc)) acc

theorem lastAssoc_nodup {e : List Int} (hnd : e.Nodup) :
    ∀ {f : List Bool} {k : Int}, k ∈ e → f.length = e.length →
      lastAssoc e f k = some (nthD f (firstIdx e k) false) := by
  induction e with
  | nil => intro f k hk; simp at hk
  | cons a e ih =>
      intro f k hk hlf
      have hnd2 := List.nodup_cons.mp hnd
      cases f with
      | nil => simp at hlf
      | cons b f =>
          rcases Decidable.em (a = k) with rfl | hne
          · unfold lastAssoc
            simp only [List.zip_cons_cons, List.foldl_cons]
            rw [foldl_lastAssoc_skip hnd2.1]
            simp [firstIdx, nthD]
          · have hk2 : k ∈ e := by
              rcases List.mem_cons.mp hk with rfl | hk2
              · exact absurd rfl hne
              · exact hk2
            unfold lastAssoc
            simp only [List.zip_cons_cons, List.foldl_cons, if_neg hne]
            have := ih hnd2.2 hk2 (by simpa using hlf)
            unfold lastAssoc at this
            rw [this]
            simp [firstIdx, hne, nthD]

theorem mem_zip_exists_idx {a : List Int} {b : List Bool} {q : Int × Bool}
    (h : q ∈ a.zip b) :
    ∃ j, j < a.length ∧ j < b.length ∧ nthD a j 0 = q.1 ∧ nthD b j false = q.2 := by
  induction a generalizing b with
  | nil => simp at h
  | cons x a ih =>
      cases b with
      | nil => simp at h
      | cons y b =>
          rw [List.zip_cons_cons] at h
          rcases List.mem_cons.mp h with rfl | h2
          · exact ⟨0, by simp, by simp, rfl, rfl⟩
          · obtain ⟨j, h1, h2, h3, h4⟩ := ih h2
            exact ⟨j + 1, by simpa using h1, by simpa using h2, h3, h4⟩

theorem nthD_map_zip {e : List Int} {f : List Bool} {g2 : Int × Bool → Bool}
    {j : Nat} (h1 : j < e.length) (h2 : j < f.length) :
    nthD ((e.zip f).map g2) j false = g2 (nthD e j 0, nthD f j false) := by
  induction e generalizing f j with
  | nil => simp at h1
  | cons x e ih =>
      cases f with
      | nil => simp at h2
      | cons y f =>
          cases j with
          | zero => simp [List.zip_cons_cons, nthD]
          | succ j =>
              simp only [List.zip_cons_cons, List.map_cons, nthD]
              exact ih (by simpa using h1) (by simpa using h2)

/-- Modelled from the spec (the claim's trial configuration): the flag list
with the target edge id set disabled, the candidate id set enabled, and all
other positions unchanged. -/
def claimTrialFlags (ids : List Int) (flags : List Bool) (eid cid : Int) :
    List Bool :=
  (ids.zip flags).map fun q => if q.1 = eid then false else if q.1 = cid then true else q.2

/-- Modelled from the spec: acceptance test of a candidate `cid` as the
claim states it: the subgraph enabled by the trial configuration is fully
connected and acyclic. -/
def claimAccepts (v ids : List Int) (p : List (Int × Int)) (flags : List Bool)
    (eid cid : Int) : Bool :=
  (buildGraph v p (claimTrialFlags ids flags eid cid) ids).connectedB &&
  !(buildGraph v p (claimTrialFlags ids flags eid cid) ids).hasCycleB

theorem trial_eq_build (status : Int → Bool) :
    ∀ (e : List Int) (p : List (Int × Int)) (f2 : List Bool) (g0 : Graph),
      p.length = e.length → f2.length = e.length →
      (∀ j, j < e.length → status (nthD e j 0) = nthD f2 j false) →
      (e.zip p).foldl
        (fun g ep => if status ep.1 then g.addEdge ep.2.1 ep.2.2 ep.1 else g) g0 =
      (p.zip (f2.zip e)).foldl
        (fun g pe => if pe.2.1 then g.addEdge pe.1.1 pe.1.2 pe.2.2 else g) g0 := by
  intro e
  induction e with
  | nil =>
      intro p f2 g0 hp hf _
      have hp0 : p = [] := List.length_eq_zero.mp (by simpa using hp)
      have hf0 : f2 = [] := List.length_eq_zero.mp (by simpa using hf)
      subst hp0
      subst hf0
      simp
  | cons a e ih =>
      intro p f2 g0 hp hf hstat
      cases p with
      | nil => simp at hp
      | cons q p =>
          cases f2 with
          | nil => simp at hf
          | cons b f2 =>
              have h0 : status a = b := by simpa [nthD] using hstat 0 (by simp)
              simp only [List.zip_cons_cons, List.foldl_cons, h0]
              rw [ih p f2 _ (by simpa using hp) (by simpa using hf) ?_]
              intro j hj
              simpa [nthD] using hstat (j + 1) (by simpa using hj)

theorem claimTrialFlags_length {e : List Int} {f : List Bool} {x c : Int}
    (hlf : f.length = e.length) : (claimTrialFlags e f x c).length = e.length := by
  unfold claimTrialFlags
  rw [List.length_map, List.length_zip, hlf, Nat.min_self]

/-- On a valid processor with duplicate-free edge ids, the trial graph the
code builds from the status dictionary coincides with the graph built from
the claim's positional trial flag list. -/
theorem trialGraph_eq_claim (v : List Int) {e : List Int} (p : List (Int × Int))
    {f : List Bool} {x c : Int} (hnd : e.Nodup) (hcx : c ≠ x)
    (hlp : p.length = e.length) (hlf : f.length = e.length) :
    trialGraph v e p
      (fun k => if k = c then true
        else if k = x then false else (lastAssoc e f k).getD false) =
    buildGraph v p (claimTrialFlags e f x c) e := by
  unfold trialGraph buildGraph
  refine trial_eq_build
    (fun k => if k = c then true
      else if k = x then false else (lastAssoc e f k).getD false)
    e p (claimTrialFlags e f x c) _ hlp (claimTrialFlags_length hlf) ?_
  intro j hj
  have hjf : j < f.length := by rw [hlf]; exact hj
  have hrhs : nthD (claimTrialFlags e f x c) j false =
      (if nthD e j 0 = x then false else if nthD e j 0 = c then true
        else nthD f j false) := nthD_map_zip hj hjf
  rw [hrhs]
  by_cases h1 : nthD e j 0 = c
  · rw [h1]
    simp [hcx]
  · by_cases h2 : nthD e j 0 = x
    · rw [h2]
      have hxc : ¬ x = c := fun h => hcx h.symm
      simp [hxc]
    · simp only []
      simp only [if_neg h1, if_neg h2]
      rw [lastAssoc_nodup hnd (nthD_mem hj) hlf]
      simp [firstIdx_nthD_nodup hnd hj]

/-- On a valid processor with duplicate-free edge ids and an enabled target
edge, `find_alternative_edges` returns exactly the disabled edge ids, in
their original order, whose claim-side trial configuration (target
disabled, candidate enabled, everything else unchanged) yields a fully
connected and acyclic enabled subgraph. -/
theorem alternative_characterization (v e : List Int) (p : List (Int × Int))
    (f : List Bool) (s x : Int) (gp : GraphProcessor)
    (hok : construct v e p f s = .ok gp) (hnd : e.Nodup) (hx : x ∈ e)
    (hen : nthD f (firstIdx e x) false = true) :
    (find_alternative_edges gp x).1 = .ok
      ((((e.zip f).filter fun q => !q.2).map (·.1)).filter
        fun c => claimAccepts v e p f x c) := by
  obtain ⟨hgp, _, hlp, _, hlf, _, _, _⟩ := construct_ok_facts hok
  have heids : gp.edge_ids = e := by rw [hgp]
  have hpairs : gp.edge_vertex_id_pairs = p := by rw [hgp]
  have hflags : gp.edge_enabled = f := by rw [hgp]
  have hvids : gp.vertex_ids = v := by rw [hgp]
  have hstep : (find_alternative_edges gp x).1 = .ok (alternativeCore gp x) := by
    unfold find_alternative_edges
    rw [if_neg (by rw [heids]; exact not_not_intro hx)]
    simp only [heids, hflags]
    rw [if_neg (by rw [hen]; simp)]
  rw [hstep]
  unfold alternativeCore
  simp only [heids, hpairs, hflags, hvids]
  congr 1
  apply List.filter_congr
  intro c hc
  simp only [List.mem_map, List.mem_filter] at hc
  obtain ⟨q, ⟨hqmem, hqflag⟩, hq1⟩ := hc
  obtain ⟨j, hje, hjf, hjq1, hjq2⟩ := mem_zip_exists_idx hqmem
  have hq2 : q.2 = false := by simpa using hqflag
  have hcx : c ≠ x := by
    intro hcx
    subst hcx
    have hfi : firstIdx e c = j := by
      rw [← hq1, ← hjq1]
      exact firstIdx_nthD_nodup hnd hje
    rw [hfi, hjq2, hq2] at hen
    exact absurd hen (by simp)
  have hgeq := trialGraph_eq_claim v p hnd hcx hlp hlf
  rw [hgeq]
  rfl

/-! ### The duplicate-edge-id instance refuting C1 and C8 as stated -/

def cexV : List Int := [1, 2, 3, 4]

def cexE : List Int := [50, 50, 60, 70, 80]

def cexP : List (Int × Int) := [(1, 2), (2, 3), (1, 3), (3, 4), (2, 3)]

def cexF : List Bool := [false, true, true, true, false]

def gpCex : GraphProcessor := ⟨cexV, cexE, cexP, cexF, 1, buildGraph cexV cexP cexF cexE⟩

/-- C1 counterexample: on a validly constructed processor whose edge-id 50
occurs twice (first occurrence disabled, second enabled),
`find_alternative_edges 60` returns `[50, 80]`, yet the claim's trial
configuration for candidate 80 (disable 60, enable 80, all other flags
unchanged) is not connected — the returned list is not the claimed set. -/
theorem claim_C1_cex :
    construct cexV cexE cexP cexF 1 = .ok gpCex ∧
    (find_alternative_edges gpCex 60).1 = .ok [50, 80] ∧
    claimAccepts cexV cexE cexP cexF 60 80 = false := by
  exact ⟨by rfl, by rfl, by rfl⟩

/-- C1 amended: provided the edge-id list is duplicate-free, for every
declared enabled edge the query returns exactly the currently disabled edge
ids, in their original order, whose trial configuration (the target
disabled, the candidate enabled, all other flags unchanged) yields a fully
connected and acyclic enabled subgraph. -/
theorem claim_C1_amended (v e : List Int) (p : List (Int × Int)) (f : List Bool)
    (s x : Int) (gp : GraphProcessor) (hok : construct v e p f s = .ok gp)
    (hnd : e.Nodup) (hx : x ∈ gp.edge_ids)
    (hen : nthD gp.edge_enabled (firstIdx gp.edge_ids x) false = true) :
    (find_alternative_edges gp x).1 = .ok
      ((((gp.edge_ids.zip gp.edge_enabled).filter fun q => !q.2).map (·.1)).filter
        fun c => claimAccepts gp.vertex_ids gp.edge_ids gp.edge_vertex_id_pairs
          gp.edge_enabled x c) := by
  obtain ⟨hgp, _, _, _, _, _, _, _⟩ := construct_ok_facts hok
  have heids : gp.edge_ids = e := by rw [hgp]
  have hpairs : gp.edge_vertex_id_pairs = p := by rw [hgp]
  have hflags : gp.edge_enabled = f := by rw [hgp]
  have hvids : gp.vertex_ids = v := by rw [hgp]
  rw [heids] at hx
  rw [heids, hflags] at hen
  rw [heids, hpairs, hflags, hvids]
  exact alternative_characterization v e p f s x gp hok hnd hx hen

/-- C1 witness: the fixture network, target edge 3. -/
theorem claim_C1_witness :
    (find_alternative_edges gpFix 3).1 = .ok
      ((((gpFix.edge_ids.zip gpFix.edge_enabled).filter fun q => !q.2).map (·.1)).filter
        fun c => claimAccepts gpFix.vertex_ids gpFix.edge_ids
          gpFix.edge_vertex_id_pairs gpFix.edge_enabled 3 c) :=
  claim_C1_amended fixV fixE fixP fixF 10 3 gpFix (by rfl) (by decide)
    (by decide) (by decide)

/-- C8 counterexample: with the duplicate-id instance, candidate 80 is
returned for target 60, but re-running construction with only edge 60
disabled and edge 80 enabled (all other flags unchanged) raises
`GraphNotFullyConnectedError`. -/
theorem claim_C8_cex :
    construct cexV cexE cexP cexF 1 = .ok gpCex ∧
    (find_alternative_edges gpCex 60).1 = .ok [50, 80] ∧
    (80 : Int) ∈ [(50 : Int), 80] ∧
    construct cexV cexE cexP (claimTrialFlags cexE cexF 60 80) 1 =
      .error .graphNotFullyConnected := by
  exact ⟨by rfl, by rfl, by decide, by rfl⟩

/-- C8 amended: provided the edge-id list is duplicate-free, every
candidate returned by `find_alternative_edges` gives a flag list (target
disabled, candidate enabled, others unchanged) on which construction
succeeds. -/
theorem claim_C8_amended (v e : List Int) (p : List (Int × Int)) (f : List Bool)
    (s x c : Int) (l : List Int) (gp : GraphProcessor)
    (hok : construct v e p f s = .ok gp) (hnd : e.Nodup)
    (hx : x ∈ gp.edge_ids)
    (hen : nthD gp.edge_enabled (firstIdx gp.edge_ids x) false = true)
    (hres : (find_alternative_edges gp x).1 = .ok l) (hc : c ∈ l) :
    (construct v e p (claimTrialFlags e f x c) s).isOk = true := by
  obtain ⟨hgp, hdisj, hlp, hends, hlf, hsv, _, _⟩ := construct_ok_facts hok
  have heids : gp.edge_ids = e := by rw [hgp]
  have hflags : gp.edge_enabled = f := by rw [hgp]
  rw [heids] at hx
  rw [heids, hflags] at hen
  have hchar := alternative_characterization v e p f s x gp hok hnd hx hen
  rw [hchar] at hres
  have hleq : l = (((e.zip f).filter fun q => !q.2).map (·.1)).filter
      (fun c => claimAccepts v e p f x c) := by
    injection hres.symm
  rw [hleq] at hc
  have hacc : claimAccepts v e p f x c = true := (List.mem_filter.mp hc).2
  have hcon2 : (buildGraph v p (claimTrialFlags e f x c) e).connectedB = true := by
    unfold claimAccepts at hacc
    simp only [Bool.and_eq_true] at hacc
    exact hacc.1
  have hcyc2 : (buildGraph v p (claimTrialFlags e f x c) e).hasCycleB = false := by
    unfold claimAccepts at hacc
    simp only [Bool.and_eq_true, Bool.not_eq_true'] at hacc
    exact hacc.2
  unfold construct
  rw [if_neg (not_not_intro hdisj)]
  rw [if_neg (not_not_intro hlp)]
  rw [if_neg (not_not_intro hends)]
  rw [if_neg (not_not_intro (claimTrialFlags_length hlf))]
  rw [if_neg (not_not_intro hsv)]
  rw [if_neg (by rw [hcon2]; simp)]
  rw [if_neg (by rw [hcyc2]; simp)]
  rfl

/-- C8 witness: fixture network, disable edge 3, re-enable returned
candidate 7. -/
theorem claim_C8_witness :
    (construct fixV fixE fixP (claimTrialFlags fixE fixF 3 7) 10).isOk = true :=
  claim_C8_amended fixV fixE fixP fixF 10 3 7 [7, 8] gpFix (by rfl) (by decide)
    (by decide) (by decide) (by rfl) (by decide)

end PSS
